import Mathlib

/-!
Verification development for the inlieuoffun/tools repository.

The definitions below are shallow embeddings of the Go sources:
  * `ILOF.Words`, `ILOF.ContainsWord`, `ILOF.Similarity` embed the text
    utilities of package `ilof` (utils.go; the variant whose `Words`
    strips non-word characters with the regexp `\W+`, and the earlier
    variant `ILOF.Utils.Words` that only splits on whitespace).
  * `ILOF.addGuest` / `ILOF.mergeGuests` / `ILOF.AddOrUpdateGuests`
    embed guest.go.
  * `ILOF.shouldKeepUpdate`, `ILOF.guestListsEqual`, `ILOF.keptUpdates`
    embed the update deduplication of the Twitter extractor.
  * `ILOF.tweetUpdateDates`, `ILOF.limitBeforeToday`,
    `ILOF.twitterUpdatesGate` embed the air-date inference and the
    search-window gate of `TwitterUpdates`.
  * `ILOF.YouTubeVideoID`, `ILOF.cleanURL` embed the URL normalizer.
  * `ILOF.createEpisodeFile` embeds the episode synthesizer of epdate.
  * `ILOF.loopStep` / `ILOF.pollRunAux` embed the polling loop of epdate.
File input/output is modelled by passing the result of the read
explicitly (`ReadResult`, `EpRead`), and an atomic write by the value
that would be written.
-/

namespace ILOF

/-- Go `strings.ToLower` (ASCII case mapping, as used by the sources). -/
def toLowerS (s : String) : String := String.mk (s.data.map Char.toLower)

/-- Go `strings.TrimSpace`: drop leading and trailing whitespace. -/
def trimS (s : String) : String :=
  String.mk (((s.data.dropWhile Char.isWhitespace).reverse.dropWhile
    Char.isWhitespace).reverse)

/-- Helper for `fields`: split a character list around whitespace runs,
accumulating the current word in reverse. -/
def fieldsAux : List Char → List Char → List (List Char)
  | [], acc => if acc.isEmpty then [] else [acc.reverse]
  | c :: cs, acc =>
    if c.isWhitespace then
      if acc.isEmpty then fieldsAux cs [] else acc.reverse :: fieldsAux cs []
    else
      fieldsAux cs (c :: acc)

/-- Go `strings.Fields`: the whitespace-separated words of a string,
with no empty words. -/
def fields (s : String) : List String := (fieldsAux s.data []).map String.mk

/-- A word character in the sense of the Go regexp `\w`:
`[0-9A-Za-z_]`. -/
def isWordChar (c : Char) : Bool := c.isAlphanum || c == '_'

/-- `punct.ReplaceAllString(w, "")` for `punct = \W+`: remove every
non-word character from a token. -/
def stripNonWord (w : String) : String := String.mk (w.data.filter isWordChar)

namespace Utils

/-- `Words` of the earlier utils.go variant: split on whitespace and
normalize to lower case (no punctuation stripping). -/
def Words (s : String) : List String := fields (trimS (toLowerS s))

end Utils

/-- `Words` of the later utils.go variant (part_004): like
`Utils.Words`, but every token additionally has its non-word characters
removed by the regexp `\W+`.  Note the stripped token is appended even
when it is empty. -/
def Words (s : String) : List String := (Utils.Words s).map stripNonWord

/-- `ContainsWord` (utils.go): whether the word list of `s` contains
`word` lower-cased. -/
def ContainsWord (s word : String) : Bool := (Words s).contains (toLowerS word)

/-- The set of distinct tokens of `s` (the `stringset.New(Words(s)...)`
value), for the punctuation-stripping `Words`. -/
def tokenSet (s : String) : Finset String := (Words s).toFinset

namespace Utils

/-- The set of distinct tokens of `s` for the earlier `Words`. -/
def tokenSet (s : String) : Finset String := (Utils.Words s).toFinset

end Utils

/-- The Otsuka–Ochiai coefficient of two token sets, exactly as computed
by `Similarity` (utils.go): 1 if both sets are empty, 0 if the product
of the cardinalities is 0, else the intersection size divided by the
square root of the product. -/
noncomputable def ochiai (A B : Finset String) : ℝ :=
  if A = ∅ ∧ B = ∅ then 1
  else if A.card * B.card = 0 then 0
  else ((A ∩ B).card : ℝ) / Real.sqrt ((A.card * B.card : ℕ) : ℝ)

/-- `Similarity` (utils.go, part_004 variant). -/
noncomputable def Similarity (a b : String) : ℝ := ochiai (tokenSet a) (tokenSet b)

namespace Utils

/-- `Similarity` of the earlier utils.go variant, whose `Words` does not
strip punctuation. -/
noncomputable def Similarity (a b : String) : ℝ :=
  ochiai (Utils.tokenSet a) (Utils.tokenSet b)

end Utils

/-- A `Guest` record (guest.go).  Episode numbers are `float64` in Go
(fractional episode numbers such as 250.5 occur); they are modelled as
rationals. -/
structure Guest where
  name : String
  twitter : String
  url : String
  notes : String
  episodes : List ℚ
deriving DecidableEq

/-- `isSameGuest` (guest.go): same name, or the first guest has a
non-empty Twitter handle equal to the second's. -/
def isSameGuest (g1 g2 : Guest) : Bool :=
  g1.name == g2.name || (g1.twitter != "" && g1.twitter == g2.twitter)

/-- `Guest.OnEpisode` (guest.go): whether `ep` occurs in the guest's
episode list. -/
def onEpisode (g : Guest) (ep : ℚ) : Bool := g.episodes.contains ep

/-- `findGuest` (guest.go): the first record in `gs` that
`isSameGuest`-matches `needle`. -/
def findGuest (needle : Guest) (gs : List Guest) : Option Guest :=
  gs.find? (fun g => isSameGuest g needle)

/-- `sort.Float64s`: sort an episode list ascending. -/
def sortQ (l : List ℚ) : List ℚ := List.insertionSort (· ≤ ·) l

/-- One step of the guest-merge loop in `AddOrUpdateGuests` (guest.go):
find the first record matching `g`; if none, append `g` with episode
list `[ep]`; if found and `ep` is already listed, leave everything
untouched; otherwise add `ep` to the record's list and re-sort it.
The boolean is the contribution to the `dirty` flag. -/
def addGuest (ep : ℚ) (g : Guest) : List Guest → List Guest × Bool
  | [] => ([{ g with episodes := [ep] }], true)
  | e :: rest =>
    if isSameGuest e g then
      if onEpisode e ep then (e :: rest, false)
      else ({ e with episodes := sortQ (e.episodes ++ [ep]) } :: rest, true)
    else
      let r := addGuest ep g rest
      (e :: r.1, r.2)

/-- Fold step of the guest-merge loop: thread the record list and the
`dirty` flag. -/
def mergeStep (ep : ℚ) (acc : List Guest × Bool) (g : Guest) : List Guest × Bool :=
  let r := addGuest ep g acc.1
  (r.1, acc.2 || r.2)

/-- The in-memory part of `AddOrUpdateGuests` (guest.go): merge each new
appearance into the record list, reporting whether anything changed. -/
def mergeGuests (ep : ℚ) (entries guests : List Guest) : List Guest × Bool :=
  guests.foldl (mergeStep ep) (entries, false)

/-- The possible outcomes of reading and parsing the guest file at
`path`; the comment block handling is byte-level and out of scope. -/
inductive ReadResult where
  | missing
  | unparseable
  | parsed (entries : List Guest)
deriving DecidableEq

/-- The observable outcome of `AddOrUpdateGuests`: success (with the
record list written back, or `none` when the file is left alone), or
the propagated read/parse error. -/
inductive MergeOutcome where
  | ok (write : Option (List Guest))
  | readError
  | parseError
deriving DecidableEq

/-- `AddOrUpdateGuests` (guest.go) at the file level: an empty batch
returns success before the file is even read; otherwise a read or parse
failure is propagated, and the merged records are written back only
when the merge reports a change. -/
def AddOrUpdateGuests (ep : ℚ) (file : ReadResult) (guests : List Guest) :
    MergeOutcome :=
  if guests = [] then .ok none
  else
    match file with
    | .missing => .readError
    | .unparseable => .parseError
    | .parsed entries =>
      let r := mergeGuests ep entries guests
      if r.2 then .ok (some r.1) else .ok none

/-- A calendar date (year, month, day). -/
structure DateYMD where
  year : ℕ
  month : ℕ
  day : ℕ
deriving DecidableEq

/-- Whether a year is a Gregorian leap year. -/
def isLeap (y : ℕ) : Bool := y % 4 == 0 && (y % 100 != 0 || y % 400 == 0)

/-- Number of days in a month. -/
def daysInMonth (y m : ℕ) : ℕ :=
  if m == 2 then (if isLeap y then 29 else 28)
  else if m == 4 || m == 6 || m == 9 || m == 11 then 30
  else 31

/-- The next calendar day (Go `Time.AddDate(0, 0, 1)` on a valid date). -/
def nextDate (d : DateYMD) : DateYMD :=
  if d.day < daysInMonth d.year d.month then
    { d with day := d.day + 1 }
  else if d.month < 12 then
    { year := d.year, month := d.month + 1, day := 1 }
  else
    { year := d.year + 1, month := 1, day := 1 }

/-- A timestamp: calendar date plus second-of-day. -/
structure Tm where
  date : DateYMD
  secOfDay : ℕ
deriving DecidableEq

/-- Go `Time.AddDate(0, 0, 1)`: advance by one calendar day, keeping
the time of day. -/
def addOneDay (t : Tm) : Tm := { t with date := nextDate t.date }

/-- A `TwitterUpdate` (ilof.go): data extracted from one announcement
tweet. -/
structure TwitterUpdate where
  tweetID : String
  date : Tm
  airDate : Tm
  youTube : String
  crowdcast : String
  guests : List Guest
deriving DecidableEq

/-- The air-date inference of `TwitterUpdates` (ilof.go): `Date` and
`AirDate` both start as the tweet's creation time, and `AirDate` is
advanced by one day when the tweet text contains the word
"tomorrow". -/
def tweetUpdateDates (text : String) (created : Tm) : Tm × Tm :=
  (created, if ContainsWord text "tomorrow" then addOneDay created else created)

/-- `guestListsEqual` (guest.go): same length, and every guest of the
first list has an `isSameGuest` match in the second. -/
def guestListsEqual (g1 g2 : List Guest) : Bool :=
  g1.length == g2.length && g1.all (fun g => (findGuest g g2).isSome)

/-- `isSameEpisode` (ilof.go): equal YouTube link, equal Crowdcast link,
and `guestListsEqual` guest lists. -/
def isSameEpisode (u1 u2 : TwitterUpdate) : Bool :=
  u1.youTube == u2.youTube && u1.crowdcast == u2.crowdcast &&
    guestListsEqual u1.guests u2.guests

/-- `shouldKeepUpdate` (ilof.go): discard an update with no links and no
guests, and discard an update identical (per `isSameEpisode`) to one
already kept. -/
def shouldKeepUpdate (u : TwitterUpdate) (us : List TwitterUpdate) : Bool :=
  if u.crowdcast == "" && u.youTube == "" && u.guests.isEmpty then false
  else !(us.any (fun v => isSameEpisode v u))

/-- The accumulation of kept updates in `TwitterUpdates` (ilof.go): the
batch is processed in order and each update is appended when
`shouldKeepUpdate` accepts it against the previously kept ones. -/
def keptUpdates (tws : List TwitterUpdate) : List TwitterUpdate :=
  tws.foldl (fun acc u => if shouldKeepUpdate u acc then acc ++ [u] else acc) []

/-- A parsed URL (`net/url.URL`), restricted to the parts the code
reads: host, path and the parsed query (a key/value list preserving
order and duplicates; `Get` reads the first value of a key). -/
structure URLRec where
  scheme : String
  host : String
  path : String
  query : List (String × String)
deriving DecidableEq

/-- `url.Values.Get`: the first value associated with key `k`, or the
empty string. -/
def getQuery (q : List (String × String)) (k : String) : String :=
  match q.find? (fun kv => kv.1 == k) with
  | some kv => kv.2
  | none => ""

/-- `cleanURL` (ilof.go): delete every query parameter whose key is not
`v`. -/
def cleanURL (u : URLRec) : URLRec :=
  { u with query := u.query.filter (fun kv => kv.1 == "v") }

/-- Go `strings.TrimPrefix`. -/
def trimPfx (s p : String) : String :=
  if p.data.isPrefixOf s.data then String.mk (s.data.drop p.data.length) else s

/-- `YouTubeVideoID` (ilof.go) on a parsed URL: on the canonical hosts
the `v` query parameter is the identifier; on the short-link host the
identifier is the path without its leading slash; any other host yields
nothing. -/
def YouTubeVideoID (u : URLRec) : String × Bool :=
  if u.host == "youtube.com" || u.host == "www.youtube.com" then
    let id := getQuery u.query "v"
    (id, id != "")
  else if u.host == "youtu.be" then
    let id := trimPfx u.path "/"
    (id, id != "")
  else ("", false)

/-- Seconds per day, for the epoch-second time model used by the search
window computation. -/
def dayLen : ℤ := 86400

/-- Midnight of the day containing epoch-second `t`
(`time.Date(now.Year(), now.Month(), now.Day(), 0, 0, 0, 0, loc)`). -/
def dayStart (t : ℤ) : ℤ := dayLen * (t.fdiv dayLen)

/-- `limitBeforeToday` (ilof.go): if `d` is more than `limit` in the
past, replace it by today's midnight minus `limit`. -/
def limitBeforeToday (d limit now : ℤ) : ℤ :=
  if now - d > limit then dayStart now - limit else d

/-- The outcome of the search-window gate in `TwitterUpdates`: either
the distinguished `ErrNoUpdates` sentinel (no query is issued), or a
search with the computed start time. -/
inductive SearchGate where
  | noUpdates
  | search (startTime : ℤ)
deriving DecidableEq

/-- The front of `TwitterUpdates` (ilof.go): clamp `since` by
`limitBeforeToday(since, 7*24h)`, add 22 hours, and report
`ErrNoUpdates` without searching when that start time is still in the
future; otherwise issue the search with that start time. -/
def twitterUpdatesGate (since now : ℤ) : SearchGate :=
  let s := limitBeforeToday since (7 * 86400) now
  let start := s + 22 * 3600
  if start > now then .noUpdates else .search start

/-- An `Episode` record (ilof.go).  The label is kept in its string
encoding; links are (title, url) pairs; `date` is the air date. -/
structure Episode where
  episode : String
  date : DateYMD
  season : ℕ
  guests : List String
  topics : String
  crowdcastURL : String
  youTubeURL : String
  acastURL : String
  audioFileURL : String
  summary : String
  special : Bool
  tags : List String
  links : List (String × String)
  detail : String
deriving DecidableEq

/-- `Episode.HasTag` (ilof.go). -/
def hasTag (e : Episode) (tag : String) : Bool := e.tags.contains tag

/-- `Episode.AddTag` (ilof.go): append `tag` unless already present. -/
def addTag (e : Episode) (tag : String) : Episode :=
  if hasTag e tag then e else { e with tags := e.tags ++ [tag] }

/-- Whether `Similarity a b` is nonzero, computed on the token sets:
nonzero exactly when both sets are empty (value 1) or the intersection
is nonempty (positive value).  `similarityPos_iff` below proves this
matches the real-valued `Similarity`. -/
def similarityPos (a b : String) : Bool :=
  decide (tokenSet a = ∅ ∧ tokenSet b = ∅) || (tokenSet a ∩ tokenSet b).card != 0

/-- The outcome of `ilof.LoadEpisode` at `path`: no file, a file whose
front matter does not parse, or a parsed episode. -/
inductive EpRead where
  | missing
  | invalid
  | ok (ep : Episode)
deriving DecidableEq

/-- The zero-valued `Episode` used by the fresh-record branch of
`createEpisodeFile`, with the given label, air date and detail. -/
def freshEpisode (num : ℕ) (airDate : DateYMD) (desc : String) : Episode :=
  { episode := toString num, date := airDate, season := 0, guests := [],
    topics := "", crowdcastURL := "", youTubeURL := "", acastURL := "",
    audioFileURL := "", summary := "", special := false, tags := [],
    links := [], detail := desc }

/-- The tag and URL mutations applied by `createEpisodeFile` (epdate)
to a loaded or fresh episode: add "cheese-night" when the description
has nonzero similarity to "cheese night", add "truth-from-fiction" when
it has nonzero similarity to "where\x27s lie", then overwrite the two
stream-URL fields from the update. -/
def applyUpdate (desc : String) (up : TwitterUpdate) (e : Episode) : Episode :=
  let e1 := if similarityPos desc "cheese night" then addTag e "cheese-night" else e
  let e2 := if similarityPos desc "where\x27s lie" then addTag e1 "truth-from-fiction" else e1
  { e2 with crowdcastURL := up.crowdcast, youTubeURL := up.youTube }

/-- `createEpisodeFile` (epdate): load the episode at the path; a
missing file yields a fresh record, any other load failure is returned
as an error (`none`); the mutations of `applyUpdate` are applied and
the result is what `WriteEpisode` persists. -/
def createEpisodeFile (file : EpRead) (num : ℕ) (desc : String)
    (up : TwitterUpdate) : Option Episode :=
  match file with
  | .invalid => none
  | .missing => some (applyUpdate desc up (freshEpisode num up.airDate.date desc))
  | .ok ep => some (applyUpdate desc up ep)

/-- What the polling loop in `main` (epdate) does after one pass:
terminate normally, terminate with exit status 3, or sleep and poll
again. -/
inductive LoopAction where
  | stop
  | exit3
  | sleep
deriving DecidableEq

/-- The decision at the top of the polling loop in `main` (epdate),
given the `-poll` and `-poll-one` flags and whether the pass produced
an update: an update stops the process when `-poll-one` is set or
`-poll` is not; no update exits with status 3 when neither flag is
set; in every other case the loop sleeps and polls again. -/
def loopStep (doPoll doPollOne didUpdate : Bool) : LoopAction :=
  if didUpdate then
    if doPollOne || !doPoll then .stop else .sleep
  else if !doPoll && !doPollOne then .exit3
  else .sleep

/-- Run the polling loop from pass index `i` with the given fuel:
returns the total number of polling passes performed and the final
action, or `none` when the loop is still running after `fuel` passes.
`outcomes j` is whether the `j`-th pass produces an update. -/
def pollRunAux (doPoll doPollOne : Bool) (outcomes : ℕ → Bool) :
    ℕ → ℕ → Option (ℕ × LoopAction)
  | 0, _ => none
  | fuel + 1, i =>
    match loopStep doPoll doPollOne (outcomes i) with
    | .sleep => pollRunAux doPoll doPollOne outcomes fuel (i + 1)
    | a => some (i + 1, a)

/-- Modelled from the spec (claim C2's reading of "an equal guest set,
where guest-set equality is order-insensitive"): genuine set equality of
guest lists under the identity rule — every guest of either list is
identified with some guest of the other.  This is the specification-side
definition, to be compared with the source's `guestListsEqual`. -/
def specGuestSetEq (g1 g2 : List Guest) : Prop :=
  (∀ a ∈ g1, ∃ b ∈ g2, isSameGuest a b = true) ∧
  (∀ b ∈ g2, ∃ a ∈ g1, isSameGuest a b = true)

instance (g1 g2 : List Guest) : Decidable (specGuestSetEq g1 g2) := by
  unfold specGuestSetEq; infer_instance

/-- The record list `gs` covers guest `g` for episode `ep`: the first
record matching `g` exists and already lists `ep`.  After a merge of
`(ep, g)` this holds, and while it holds a further merge of `(ep, g)`
is a no-op. -/
def covered (ep : ℚ) (gs : List Guest) (g : Guest) : Prop :=
  ∃ r, findGuest g gs = some r ∧ ep ∈ r.episodes

end ILOF

namespace ILOF

/-- C10: merging an empty batch of appearances succeeds immediately with
no write, regardless of the state of the guest file — even when the file
is missing or unparseable the read result is never consulted. -/
theorem addOrUpdateGuests_empty_batch (ep : ℚ) (file : ReadResult) :
    AddOrUpdateGuests ep file [] = .ok none := by
  simp [AddOrUpdateGuests]

/-- C9 counterexample: in poll-one mode (`-poll-one` set, `-poll` not), a
polling pass that produces no update makes the loop sleep and poll
again, instead of stopping; with outcomes that never produce an update
the loop is still polling after five passes.  This refutes the claim
that the mode performs exactly one polling pass and stops regardless of
the outcome. -/
theorem pollOne_counterexample :
    loopStep false true false = LoopAction.sleep ∧
    LoopAction.sleep ≠ LoopAction.stop ∧
    pollRunAux false true (fun _ => false) 5 0 = none := by
  decide

/-- Auxiliary for C9: starting at pass `i`, if the next `k` passes
produce no update and pass `i + k` produces one, the poll-one loop
performs exactly `k + 1` further passes and stops. -/
theorem pollRunAux_stop (outcomes : ℕ → Bool) :
    ∀ k i, (∀ j, j < k → outcomes (i + j) = false) → outcomes (i + k) = true →
      pollRunAux false true outcomes (k + 1) i = some (i + k + 1, LoopAction.stop)
  | 0, i, _, h2 => by
    have hi : outcomes i = true := by simpa using h2
    simp [pollRunAux, loopStep, hi]
  | k + 1, i, h1, h2 => by
    have hi : outcomes i = false := by simpa using h1 0 (Nat.succ_pos k)
    have ih := pollRunAux_stop outcomes k (i + 1)
      (fun j hj => by
        have := h1 (j + 1) (by omega)
        simpa [Nat.add_comm, Nat.add_left_comm, Nat.add_assoc] using this)
      (by
        have : i + 1 + k = i + (k + 1) := by omega
        rw [this]; exact h2)
    have harith : i + 1 + k + 1 = i + (k + 1) + 1 := by omega
    rw [harith] at ih
    have hstep : loopStep false true (outcomes i) = LoopAction.sleep := by
      simp [loopStep, hi]
    calc pollRunAux false true outcomes (k + 1 + 1) i
        = pollRunAux false true outcomes (k + 1) (i + 1) := by
          show (match loopStep false true (outcomes i) with
            | LoopAction.sleep => pollRunAux false true outcomes (k + 1) (i + 1)
            | a => some (i + 1, a)) =
            pollRunAux false true outcomes (k + 1) (i + 1)
          rw [hstep]
      _ = some (i + (k + 1) + 1, LoopAction.stop) := ih

/-- C9 (amended): in poll-one mode, the loop stops right after the first
polling pass that produces an update — if the first `k` passes produce
no update and pass `k` produces one, exactly `k + 1` passes are
performed; a pass that produces an update always stops the loop. -/
theorem pollOne_stops_after_first_update (outcomes : ℕ → Bool) (k : ℕ)
    (h1 : ∀ j, j < k → outcomes j = false) (h2 : outcomes k = true) :
    pollRunAux false true outcomes (k + 1) 0 = some (k + 1, LoopAction.stop) ∧
    (∀ doPoll, loopStep doPoll true true = LoopAction.stop) := by
  constructor
  · have := pollRunAux_stop outcomes k 0 (fun j hj => by simpa using h1 j hj)
      (by simpa using h2)
    simpa using this
  · intro doPoll; cases doPoll <;> rfl

/-- C9 witness: with updates appearing first at pass 1, the poll-one
loop performs exactly two passes and stops. -/
theorem pollOne_stops_after_first_update_witness :
    (∀ j, j < 1 → (fun n => n == 1) j = false) ∧ ((fun n => n == 1) 1 = true) ∧
    (pollRunAux false true (fun n => n == 1) 2 0 = some (2, LoopAction.stop) ∧
      (∀ doPoll, loopStep doPoll true true = LoopAction.stop)) :=
  ⟨by decide, by decide,
    pollOne_stops_after_first_update (fun n => n == 1) 1 (by decide) (by decide)⟩

/-- C5: the inferred air date of a tweet equals the tweet's creation
time, except that it is advanced by exactly one calendar day when the
tweet text contains the word "tomorrow" (matched case-insensitively,
with punctuation stripped); concretely, a post at 2023-06-10T02:00:00Z
saying "Tomorrow on @show" gets air date 2023-06-11. -/
theorem air_date_tomorrow (text : String) (created : Tm) :
    (ContainsWord text "tomorrow" = true →
      (tweetUpdateDates text created).2 = addOneDay created) ∧
    (ContainsWord text "tomorrow" = false →
      (tweetUpdateDates text created).2 = created) ∧
    (tweetUpdateDates text created).1 = created ∧
    ContainsWord "Tomorrow on @show" "tomorrow" = true ∧
    ContainsWord "TOMORROW!" "tomorrow" = true ∧
    ContainsWord "today on the show" "tomorrow" = false ∧
    (tweetUpdateDates "Tomorrow on @show" ⟨⟨2023, 6, 10⟩, 7200⟩).2 =
      ⟨⟨2023, 6, 11⟩, 7200⟩ ∧
    addOneDay ⟨⟨2023, 6, 10⟩, 7200⟩ = ⟨⟨2023, 6, 11⟩, 7200⟩ := by
  refine ⟨fun h => ?_, fun h => ?_, rfl, by decide, by decide, by decide,
    by decide, by decide⟩
  · simp [tweetUpdateDates, h]
  · simp [tweetUpdateDates, h]

/-- C5 witness: the "tomorrow" branch at the concrete post of the
claim. -/
theorem air_date_tomorrow_witness :
    ContainsWord "Tomorrow on @show" "tomorrow" = true ∧
    (tweetUpdateDates "Tomorrow on @show" ⟨⟨2023, 6, 10⟩, 7200⟩).2 =
      addOneDay ⟨⟨2023, 6, 10⟩, 7200⟩ :=
  ⟨by decide, (air_date_tomorrow "Tomorrow on @show" ⟨⟨2023, 6, 10⟩, 7200⟩).1
    (by decide)⟩

/-- C6: a "since" bound more than 7 days in the past is clamped to the
midnight exactly 7 days before the current day (so, at calendar-day
granularity, exactly 7 days before now); a younger bound is unchanged;
and when the resulting search start time (the clamped bound plus 22
hours) is still in the future, `TwitterUpdates` reports the
distinguished no-updates sentinel — a value distinct from every real
search — without issuing an upstream query. -/
theorem search_window_clamp (since now : ℤ) :
    (now - since > 7 * 86400 →
      limitBeforeToday since (7 * 86400) now = dayStart now - 7 * 86400 ∧
      dayStart (limitBeforeToday since (7 * 86400) now) =
        dayStart now - 7 * 86400) ∧
    (¬(now - since > 7 * 86400) →
      limitBeforeToday since (7 * 86400) now = since) ∧
    (limitBeforeToday since (7 * 86400) now + 22 * 3600 > now →
      twitterUpdatesGate since now = SearchGate.noUpdates) ∧
    (¬(limitBeforeToday since (7 * 86400) now + 22 * 3600 > now) →
      twitterUpdatesGate since now =
        SearchGate.search (limitBeforeToday since (7 * 86400) now + 22 * 3600)) ∧
    (∀ t, SearchGate.noUpdates ≠ SearchGate.search t) := by
  refine ⟨fun h => ⟨?_, ?_⟩, fun h => ?_, fun h => ?_, fun h => ?_,
    fun t hc => by cases hc⟩
  · unfold limitBeforeToday; rw [if_pos h]
  · have hclamp : limitBeforeToday since (7 * 86400) now =
        dayStart now - 7 * 86400 := by
      unfold limitBeforeToday; rw [if_pos h]
    rw [hclamp]
    show dayLen * ((dayLen * now.fdiv dayLen - 7 * 86400).fdiv dayLen) = _
    have : dayLen * now.fdiv dayLen - 7 * 86400 =
        dayLen * (now.fdiv dayLen - 7) := by
      show _ = dayLen * _
      rw [mul_sub]
      norm_num [dayLen]
    rw [this, Int.mul_fdiv_cancel_left _ (by norm_num [dayLen])]
    rw [mul_sub]
    norm_num [dayLen, dayStart]
  · unfold limitBeforeToday; rw [if_neg h]
  · simp only [twitterUpdatesGate]
    rw [if_pos h]
  · simp only [twitterUpdatesGate]
    rw [if_neg h]

/-- A character that is not a word character is not an upper-case
letter. -/
theorem char_not_upper_of_not_word (c : Char) (h : isWordChar c = false) :
    c.isUpper = false := by
  unfold isWordChar Char.isAlphanum Char.isAlpha at h
  simp only [Bool.or_eq_false_iff] at h
  exact h.1.1.1

/-- `Char.toLower` fixes every character that is not an upper-case
letter. -/
theorem char_toLower_eq_self (c : Char) (h : c.isUpper = false) :
    c.toLower = c := by
  unfold Char.toLower
  simp only []
  rw [if_neg]
  intro hc
  unfold Char.isUpper at h
  have h1 : (65 : UInt32) ≤ c.val := by
    rw [UInt32.le_def, BitVec.le_def]
    simpa [Char.toNat, UInt32.toNat] using hc.1
  have h2 : c.val ≤ (90 : UInt32) := by
    rw [UInt32.le_def, BitVec.le_def]
    simpa [Char.toNat, UInt32.toNat] using hc.2
  simp [h1, h2] at h

/-- Lower-casing fixes a string with no word characters. -/
theorem toLowerS_eq_self (p : String) (h : ∀ c ∈ p.data, isWordChar c = false) :
    toLowerS p = p := by
  unfold toLowerS
  have : p.data.map Char.toLower = p.data.map id :=
    List.map_congr_left (fun c hc =>
      char_toLower_eq_self c (char_not_upper_of_not_word c (h c hc)))
  rw [this, List.map_id]

/-- `dropWhile isWhitespace` fixes a whitespace-free list. -/
theorem dropWhile_ws_eq_self (l : List Char)
    (h : ∀ c ∈ l, c.isWhitespace = false) :
    l.dropWhile Char.isWhitespace = l := by
  cases l with
  | nil => rfl
  | cons c cs => simp [List.dropWhile_cons, h c (by simp)]

/-- Trimming fixes a whitespace-free string. -/
theorem trimS_eq_self (p : String) (h : ∀ c ∈ p.data, c.isWhitespace = false) :
    trimS p = p := by
  unfold trimS
  rw [dropWhile_ws_eq_self p.data h,
    dropWhile_ws_eq_self p.data.reverse (fun c hc => h c (List.mem_reverse.mp hc)),
    List.reverse_reverse]

/-- On a whitespace-free suffix, the field splitter returns the pending
word (accumulator plus suffix) as a single field, or nothing if both are
empty. -/
theorem fieldsAux_of_no_ws :
    ∀ (l acc : List Char), (∀ c ∈ l, c.isWhitespace = false) →
      fieldsAux l acc =
        if (acc.reverse ++ l).isEmpty then [] else [acc.reverse ++ l]
  | [], acc, _ => by cases acc <;> simp [fieldsAux]
  | c :: cs, acc, h => by
    have hc : c.isWhitespace = false := h c (by simp)
    have ih := fieldsAux_of_no_ws cs (c :: acc) (fun x hx => h x (by simp [hx]))
    have hstep : fieldsAux (c :: cs) acc = fieldsAux cs (c :: acc) := by
      show (if c.isWhitespace then
          if acc.isEmpty then fieldsAux cs [] else acc.reverse :: fieldsAux cs []
        else fieldsAux cs (c :: acc)) = fieldsAux cs (c :: acc)
      rw [if_neg (by simp [hc])]
    rw [hstep, ih]
    simp

/-- A nonempty whitespace-free string is a single field. -/
theorem fields_punct (p : String) (h1 : p.data ≠ [])
    (h2 : ∀ c ∈ p.data, c.isWhitespace = false) : fields p = [p] := by
  unfold fields
  rw [fieldsAux_of_no_ws p.data [] h2]
  have : (([] : List Char).reverse ++ p.data).isEmpty = false := by
    simp [List.isEmpty_iff, h1]
  rw [this]
  simp

/-- C4 counterexample: a punctuation-only string does not have an empty
token set — the stripped token is kept as the empty string, so the
token set of "." is the singleton containing the empty string (and the
earlier non-stripping `Words` keeps "." itself). -/
theorem words_punct_counterexample :
    Words "." = [""] ∧ tokenSet "." ≠ ∅ ∧ tokenSet "." = {""} ∧
    Utils.Words "." = ["."] ∧ Utils.tokenSet "." ≠ ∅ := by
  decide

/-- C4 (amended): tokens are case-normalized and non-word characters are
stripped from each token, but a token consisting only of punctuation
contributes the empty string to the token set as a set member (it is
not treated as absent), so a nonempty punctuation-only string has token
set containing the empty string only. -/
theorem words_strip_amended (s p : String) (hp1 : p.data ≠ [])
    (hp2 : ∀ c ∈ p.data, isWordChar c = false ∧ c.isWhitespace = false) :
    (∀ w ∈ Words s, ∀ c ∈ w.data, isWordChar c = true) ∧
    Words p = [""] ∧ tokenSet p = {""} := by
  have hWp : Words p = [""] := by
    have hW : Utils.Words p = [p] := by
      unfold Utils.Words
      rw [toLowerS_eq_self p (fun c hc => (hp2 c hc).1),
        trimS_eq_self p (fun c hc => (hp2 c hc).2),
        fields_punct p hp1 (fun c hc => (hp2 c hc).2)]
    unfold Words
    rw [hW]
    have : stripNonWord p = "" := by
      unfold stripNonWord
      rw [List.filter_eq_nil_iff.mpr (fun c hc => by simp [(hp2 c hc).1])]
    simp [this]
  refine ⟨?_, hWp, ?_⟩
  · intro w hw c hc
    unfold Words at hw
    obtain ⟨w', hw', rfl⟩ := List.mem_map.mp hw
    exact (List.mem_filter.mp hc).2
  · unfold tokenSet
    rw [hWp]
    rfl

/-- C4 witness: the amended statement at the concrete strings "a.b c!"
and "?!...". -/
theorem words_strip_amended_witness :
    ("?!...".data ≠ [] ∧
      (∀ c ∈ "?!...".data, isWordChar c = false ∧ c.isWhitespace = false)) ∧
    ((∀ w ∈ Words "a.b c!", ∀ c ∈ w.data, isWordChar c = true) ∧
      Words "?!..." = [""] ∧ tokenSet "?!..." = {""}) :=
  ⟨⟨by decide, by decide⟩,
    words_strip_amended "a.b c!" "?!..." (by decide) (by decide)⟩

/-- The Ochiai coefficient is symmetric. -/
theorem ochiai_comm (A B : Finset String) : ochiai A B = ochiai B A := by
  by_cases hA : A = ∅ <;> by_cases hB : B = ∅ <;>
    simp [ochiai, hA, hB, Finset.inter_comm, Nat.mul_comm]

/-- The Ochiai coefficient is nonnegative. -/
theorem ochiai_nonneg (A B : Finset String) : 0 ≤ ochiai A B := by
  unfold ochiai
  split
  · norm_num
  · split
    · norm_num
    · positivity

/-- The Ochiai coefficient is at most one. -/
theorem ochiai_le_one (A B : Finset String) : ochiai A B ≤ 1 := by
  unfold ochiai
  split
  · norm_num
  · split
    · norm_num
    · rename_i h1 h2
      have hden : (0 : ℝ) < ((A.card * B.card : ℕ) : ℝ) := by
        exact_mod_cast Nat.pos_of_ne_zero h2
      have hsq : 0 < Real.sqrt ((A.card * B.card : ℕ) : ℝ) :=
        Real.sqrt_pos.mpr hden
      rw [div_le_one hsq, Real.le_sqrt (by positivity) (le_of_lt hden)]
      have hn : (A ∩ B).card * (A ∩ B).card ≤ A.card * B.card :=
        Nat.mul_le_mul (Finset.card_le_card Finset.inter_subset_left)
          (Finset.card_le_card Finset.inter_subset_right)
      rw [sq]
      exact_mod_cast hn

/-- On two nonempty sets, the Ochiai coefficient is the intersection
size over the square root of the cardinality product. -/
theorem ochiai_of_ne_empty (A B : Finset String) (hA : A ≠ ∅) (hB : B ≠ ∅) :
    ochiai A B = ((A ∩ B).card : ℝ) /
      Real.sqrt ((A.card * B.card : ℕ) : ℝ) := by
  unfold ochiai
  rw [if_neg (by tauto), if_neg (by
    simp [Nat.mul_eq_zero, Finset.card_eq_zero, hA, hB])]

/-- Evaluate the Ochiai coefficient from concrete cardinalities. -/
theorem ochiai_eval (A B : Finset String) (m n k : ℕ)
    (hA : A.card = m) (hB : B.card = n) (hI : (A ∩ B).card = k)
    (hm : m ≠ 0) (hn : n ≠ 0) :
    ochiai A B = (k : ℝ) / Real.sqrt ((m * n : ℕ) : ℝ) := by
  have hA' : A ≠ ∅ := by
    intro h
    rw [h, Finset.card_empty] at hA
    exact hm hA.symm
  have hB' : B ≠ ∅ := by
    intro h
    rw [h, Finset.card_empty] at hB
    exact hn hB.symm
  rw [ochiai_of_ne_empty A B hA' hB', hI, hA, hB]

/-- The square root of nine. -/
theorem sqrt_nine : Real.sqrt ((9 : ℕ) : ℝ) = 3 := by
  rw [show ((9 : ℕ) : ℝ) = (3 : ℝ) ^ 2 by norm_num,
    Real.sqrt_sq (by norm_num : (0 : ℝ) ≤ 3)]

/-- The square root of four. -/
theorem sqrt_four : Real.sqrt ((4 : ℕ) : ℝ) = 2 := by
  rw [show ((4 : ℕ) : ℝ) = (2 : ℝ) ^ 2 by norm_num,
    Real.sqrt_sq (by norm_num : (0 : ℝ) ≤ 2)]

/-- Similarity of "a b c" and "d e f" (disjoint token sets). -/
theorem sim_vec1 : Utils.Similarity "a b c" "d e f" = 0 := by
  show ochiai (Utils.tokenSet "a b c") (Utils.tokenSet "d e f") = 0
  rw [ochiai_eval _ _ 3 3 0 (by decide) (by decide) (by decide)
    (by decide) (by decide)]
  norm_num

/-- Similarity of "a b c" and "c b a" (equal token sets). -/
theorem sim_vec2 : Utils.Similarity "a b c" "c b a" = 1 := by
  show ochiai (Utils.tokenSet "a b c") (Utils.tokenSet "c b a") = 1
  rw [ochiai_eval _ _ 3 3 3 (by decide) (by decide) (by decide)
    (by decide) (by decide), sqrt_nine]
  norm_num

/-- Similarity of "a b c" and "b d f" (one common token of three). -/
theorem sim_vec3 : Utils.Similarity "a b c" "b d f" = 1 / 3 := by
  show ochiai (Utils.tokenSet "a b c") (Utils.tokenSet "b d f") = 1 / 3
  rw [ochiai_eval _ _ 3 3 1 (by decide) (by decide) (by decide)
    (by decide) (by decide), sqrt_nine]
  norm_num

/-- Similarity of "a b" and "b c" (one common token of two). -/
theorem sim_vec4 : Utils.Similarity "a b" "b c" = 0.5 := by
  show ochiai (Utils.tokenSet "a b") (Utils.tokenSet "b c") = 0.5
  rw [ochiai_eval _ _ 2 2 1 (by decide) (by decide) (by decide)
    (by decide) (by decide), sqrt_four]
  norm_num

/-- C3: similarity returns 1 when both token sets are empty, 0 when
exactly one is empty, and otherwise the size of the intersection over
the square root of the product of the set sizes; it is symmetric with
values in [0, 1], and matches the concrete vectors of the spec. -/
theorem similarity_spec (a b : String) :
    (Utils.tokenSet a = ∅ → Utils.tokenSet b = ∅ → Utils.Similarity a b = 1) ∧
    ((Utils.tokenSet a = ∅ ↔ Utils.tokenSet b ≠ ∅) → Utils.Similarity a b = 0) ∧
    (Utils.tokenSet a ≠ ∅ → Utils.tokenSet b ≠ ∅ →
      Utils.Similarity a b = ((Utils.tokenSet a ∩ Utils.tokenSet b).card : ℝ) /
        Real.sqrt (((Utils.tokenSet a).card * (Utils.tokenSet b).card : ℕ) : ℝ)) ∧
    Utils.Similarity a b = Utils.Similarity b a ∧
    0 ≤ Utils.Similarity a b ∧ Utils.Similarity a b ≤ 1 ∧
    Utils.Similarity "a b c" "d e f" = 0 ∧
    Utils.Similarity "a b c" "c b a" = 1 ∧
    Utils.Similarity "a b c" "b d f" = 1 / 3 ∧
    Utils.Similarity "a b" "b c" = 0.5 := by
  refine ⟨fun hA hB => ?_, fun h => ?_, fun hA hB => ?_,
    ochiai_comm _ _, ochiai_nonneg _ _, ochiai_le_one _ _,
    sim_vec1, sim_vec2, sim_vec3, sim_vec4⟩
  · show ochiai (Utils.tokenSet a) (Utils.tokenSet b) = 1
    simp [ochiai, hA, hB]
  · show ochiai (Utils.tokenSet a) (Utils.tokenSet b) = 0
    by_cases hA : Utils.tokenSet a = ∅
    · have hB := h.mp hA
      unfold ochiai
      rw [if_neg (by tauto), if_pos (by
        simp [Nat.mul_eq_zero, Finset.card_eq_zero, hA])]
    · have hB : Utils.tokenSet b = ∅ := by
        by_contra hB
        exact hA (h.mpr hB)
      unfold ochiai
      rw [if_neg (by tauto), if_pos (by
        simp [Nat.mul_eq_zero, Finset.card_eq_zero, hB])]
  · exact ochiai_of_ne_empty _ _ hA hB

/-- C3 witness: the formula clause at the concrete pair "a b", "b c",
whose token sets are both nonempty. -/
theorem similarity_spec_witness :
    (Utils.tokenSet "a b" ≠ ∅ ∧ Utils.tokenSet "b c" ≠ ∅) ∧
    Utils.Similarity "a b" "b c" =
      ((Utils.tokenSet "a b" ∩ Utils.tokenSet "b c").card : ℝ) /
        Real.sqrt (((Utils.tokenSet "a b").card *
          (Utils.tokenSet "b c").card : ℕ) : ℝ) :=
  ⟨⟨by decide, by decide⟩,
    (similarity_spec "a b" "b c").2.2.1 (by decide) (by decide)⟩

/-- C6 witness: a concrete clamp (since 10 days old) whose clamped start
time is in the past, and hence a search is issued; plus the future-bound
branch exercised through the gate. -/
theorem search_window_clamp_witness :
    ((1000000 : ℤ) - 100000 > 7 * 86400 ∧
      limitBeforeToday 100000 (7 * 86400) 1000000 =
        dayStart 1000000 - 7 * 86400 ∧
      dayStart (limitBeforeToday 100000 (7 * 86400) 1000000) =
        dayStart 1000000 - 7 * 86400) ∧
    (limitBeforeToday 950000 (7 * 86400) 1000000 + 22 * 3600 > 1000000 ∧
      twitterUpdatesGate 950000 1000000 = SearchGate.noUpdates) :=
  ⟨⟨by decide, (search_window_clamp 100000 1000000).1 (by decide)⟩,
   ⟨by decide, (search_window_clamp 950000 1000000).2.2.1 (by decide)⟩⟩

end ILOF

namespace ILOF

theorem ochiai_ne_zero_iff (A B : Finset String) :
    ochiai A B ≠ 0 ↔ ((A = ∅ ∧ B = ∅) ∨ (A ∩ B).card ≠ 0) := by
  unfold ochiai
  by_cases hAB : A = ∅ ∧ B = ∅
  · rw [if_pos hAB]
    simp [hAB]
  · rw [if_neg hAB]
    by_cases hden : A.card * B.card = 0
    · rw [if_pos hden]
      have hnum : (A ∩ B).card = 0 := by
        rcases Nat.mul_eq_zero.mp hden with h | h
        · have : A = ∅ := Finset.card_eq_zero.mp h
          simp [this]
        · have : B = ∅ := Finset.card_eq_zero.mp h
          simp [this]
      simp [hAB, hnum]
    · rw [if_neg hden]
      have hpos : (0 : ℝ) < ((A.card * B.card : ℕ) : ℝ) := by
        exact_mod_cast Nat.pos_of_ne_zero hden
      have hsq : Real.sqrt ((A.card * B.card : ℕ) : ℝ) ≠ 0 :=
        ne_of_gt (Real.sqrt_pos.mpr hpos)
      rw [div_ne_zero_iff]
      simp only [hsq, and_true, ne_eq, Nat.cast_eq_zero, Finset.card_eq_zero]
      constructor
      · intro hne
        exact Or.inr (by simpa [Finset.card_eq_zero] using hne)
      · rintro (⟨hA, hB⟩ | hne)
        · exact absurd ⟨hA, hB⟩ hAB
        · simpa [Finset.card_eq_zero] using hne

theorem similarityPos_iff (a b : String) :
    similarityPos a b = true ↔ Similarity a b ≠ 0 := by
  unfold similarityPos
  rw [show Similarity a b = ochiai (tokenSet a) (tokenSet b) from rfl,
    ochiai_ne_zero_iff]
  simp

theorem addTag_mem (e : Episode) (t t' : String) :
    t' ∈ (addTag e t).tags ↔ t' ∈ e.tags ∨ t' = t := by
  unfold addTag
  by_cases h : hasTag e t
  · rw [if_pos h]
    have hmem : t ∈ e.tags := by simpa [hasTag] using h
    constructor
    · exact Or.inl
    · rintro (h' | rfl)
      · exact h'
      · exact hmem
  · rw [if_neg h]
    simp

theorem addTag_nodup (e : Episode) (t : String) (h : e.tags.Nodup) :
    (addTag e t).tags.Nodup := by
  unfold addTag
  by_cases hh : hasTag e t
  · rw [if_pos hh]; exact h
  · rw [if_neg hh]
    have ht : t ∉ e.tags := by simpa [hasTag] using hh
    simp [List.nodup_append, h, ht]

theorem addTag_append (e : Episode) (t : String) :
    ∃ new, (addTag e t).tags = e.tags ++ new := by
  unfold addTag
  by_cases h : hasTag e t
  · rw [if_pos h]; exact ⟨[], by simp⟩
  · rw [if_neg h]; exact ⟨[t], rfl⟩

end ILOF

namespace ILOF

theorem similarity_eq_zero_of_not_pos (a b : String)
    (h : ¬similarityPos a b = true) : Similarity a b = 0 := by
  by_contra hne
  exact h ((similarityPos_iff a b).mpr hne)

theorem applyUpdate_tags_mem (desc : String) (up : TwitterUpdate) (e : Episode)
    (t : String) :
    t ∈ (applyUpdate desc up e).tags ↔ t ∈ e.tags ∨
      (t = "cheese-night" ∧ Similarity desc "cheese night" ≠ 0) ∨
      (t = "truth-from-fiction" ∧ Similarity desc "where\x27s lie" ≠ 0) := by
  unfold applyUpdate
  by_cases h1 : similarityPos desc "cheese night" = true <;>
    by_cases h2 : similarityPos desc "where\x27s lie" = true
  · have s1 := (similarityPos_iff _ _).mp h1
    have s2 := (similarityPos_iff _ _).mp h2
    simp [h1, h2, addTag_mem, s1, s2, or_assoc]
  · have s1 := (similarityPos_iff _ _).mp h1
    have s2 := similarity_eq_zero_of_not_pos _ _ h2
    simp [h1, h2, addTag_mem, s1, s2]
  · have s1 := similarity_eq_zero_of_not_pos _ _ h1
    have s2 := (similarityPos_iff _ _).mp h2
    simp [h1, h2, addTag_mem, s1, s2]
  · have s1 := similarity_eq_zero_of_not_pos _ _ h1
    have s2 := similarity_eq_zero_of_not_pos _ _ h2
    simp [h1, h2, s1, s2]

theorem applyUpdate_tags_append (desc : String) (up : TwitterUpdate)
    (e : Episode) : ∃ new, (applyUpdate desc up e).tags = e.tags ++ new := by
  unfold applyUpdate
  by_cases h1 : similarityPos desc "cheese night" = true <;>
    by_cases h2 : similarityPos desc "where\x27s lie" = true <;>
    simp only [h1, h2, if_true, if_false]
  · obtain ⟨n1, hn1⟩ := addTag_append e "cheese-night"
    obtain ⟨n2, hn2⟩ := addTag_append (addTag e "cheese-night") "truth-from-fiction"
    exact ⟨n1 ++ n2, by simp [hn2, hn1]⟩
  · obtain ⟨n1, hn1⟩ := addTag_append e "cheese-night"
    exact ⟨n1, hn1⟩
  · obtain ⟨n2, hn2⟩ := addTag_append e "truth-from-fiction"
    exact ⟨n2, hn2⟩
  · exact ⟨[], by simp⟩

theorem applyUpdate_tags_nodup (desc : String) (up : TwitterUpdate)
    (e : Episode) (h : e.tags.Nodup) : (applyUpdate desc up e).tags.Nodup := by
  unfold applyUpdate
  by_cases h1 : similarityPos desc "cheese night" = true <;>
    by_cases h2 : similarityPos desc "where\x27s lie" = true <;>
    simp only [h1, h2, if_true, if_false] <;>
    first
      | exact addTag_nodup _ _ (addTag_nodup _ _ h)
      | exact addTag_nodup _ _ h
      | exact h

theorem addTag_detail (e : Episode) (t : String) :
    (addTag e t).detail = e.detail := by
  unfold addTag
  split <;> rfl

theorem addTag_episode (e : Episode) (t : String) :
    (addTag e t).episode = e.episode := by
  unfold addTag
  split <;> rfl

theorem addTag_date (e : Episode) (t : String) :
    (addTag e t).date = e.date := by
  unfold addTag
  split <;> rfl

theorem addTag_season (e : Episode) (t : String) :
    (addTag e t).season = e.season := by
  unfold addTag
  split <;> rfl

theorem addTag_guests (e : Episode) (t : String) :
    (addTag e t).guests = e.guests := by
  unfold addTag
  split <;> rfl

theorem addTag_topics (e : Episode) (t : String) :
    (addTag e t).topics = e.topics := by
  unfold addTag
  split <;> rfl

theorem addTag_acastURL (e : Episode) (t : String) :
    (addTag e t).acastURL = e.acastURL := by
  unfold addTag
  split <;> rfl

theorem addTag_audioFileURL (e : Episode) (t : String) :
    (addTag e t).audioFileURL = e.audioFileURL := by
  unfold addTag
  split <;> rfl

theorem addTag_summary (e : Episode) (t : String) :
    (addTag e t).summary = e.summary := by
  unfold addTag
  split <;> rfl

theorem addTag_special (e : Episode) (t : String) :
    (addTag e t).special = e.special := by
  unfold addTag
  split <;> rfl

theorem addTag_links (e : Episode) (t : String) :
    (addTag e t).links = e.links := by
  unfold addTag
  split <;> rfl

theorem applyUpdate_frame (desc : String) (up : TwitterUpdate) (e : Episode) :
    (applyUpdate desc up e).detail = e.detail ∧
    (applyUpdate desc up e).episode = e.episode ∧
    (applyUpdate desc up e).date = e.date ∧
    (applyUpdate desc up e).season = e.season ∧
    (applyUpdate desc up e).guests = e.guests ∧
    (applyUpdate desc up e).topics = e.topics ∧
    (applyUpdate desc up e).acastURL = e.acastURL ∧
    (applyUpdate desc up e).audioFileURL = e.audioFileURL ∧
    (applyUpdate desc up e).summary = e.summary ∧
    (applyUpdate desc up e).special = e.special ∧
    (applyUpdate desc up e).links = e.links ∧
    (applyUpdate desc up e).crowdcastURL = up.crowdcast ∧
    (applyUpdate desc up e).youTubeURL = up.youTube := by
  unfold applyUpdate
  split_ifs <;>
    simp [addTag_detail, addTag_episode, addTag_date, addTag_season,
      addTag_guests, addTag_topics, addTag_acastURL, addTag_audioFileURL,
      addTag_summary, addTag_special, addTag_links]

end ILOF

namespace ILOF

/-- C7: the episode synthesizer loads an existing record and preserves
every field it does not own — in particular the detail body and any
manually-added tags survive — while always (fresh or existing)
overwriting exactly the two stream-URL fields from the update; a
content-derived tag is in the written record exactly when it was already
present or its trigger phrase has nonzero similarity against the fetched
description, and no duplicate tag is introduced; an unreadable existing
file is an error. -/
theorem create_episode_spec (ep e' : Episode) (num : ℕ) (desc : String)
    (up : TwitterUpdate) :
    (createEpisodeFile (.ok ep) num desc up = some e' →
      e'.detail = ep.detail ∧ e'.episode = ep.episode ∧ e'.date = ep.date ∧
      e'.season = ep.season ∧ e'.guests = ep.guests ∧ e'.topics = ep.topics ∧
      e'.acastURL = ep.acastURL ∧ e'.audioFileURL = ep.audioFileURL ∧
      e'.summary = ep.summary ∧ e'.special = ep.special ∧ e'.links = ep.links ∧
      e'.crowdcastURL = up.crowdcast ∧ e'.youTubeURL = up.youTube ∧
      (∃ new, e'.tags = ep.tags ++ new) ∧
      (∀ t, t ∈ e'.tags ↔ t ∈ ep.tags ∨
        (t = "cheese-night" ∧ Similarity desc "cheese night" ≠ 0) ∨
        (t = "truth-from-fiction" ∧ Similarity desc "where\x27s lie" ≠ 0)) ∧
      (ep.tags.Nodup → e'.tags.Nodup)) ∧
    (createEpisodeFile .missing num desc up = some e' →
      e'.detail = desc ∧ e'.episode = toString num ∧
      e'.date = up.airDate.date ∧
      e'.crowdcastURL = up.crowdcast ∧ e'.youTubeURL = up.youTube ∧
      (∀ t, t ∈ e'.tags ↔
        (t = "cheese-night" ∧ Similarity desc "cheese night" ≠ 0) ∨
        (t = "truth-from-fiction" ∧ Similarity desc "where\x27s lie" ≠ 0))) ∧
    createEpisodeFile .invalid num desc up = none := by
  refine ⟨fun h => ?_, fun h => ?_, rfl⟩
  · have he : e' = applyUpdate desc up ep := by
      have : some (applyUpdate desc up ep) = some e' := h
      exact (Option.some.injEq _ _ ▸ this).symm
    subst he
    obtain ⟨f1, f2, f3, f4, f5, f6, f7, f8, f9, f10, f11, f12, f13⟩ :=
      applyUpdate_frame desc up ep
    exact ⟨f1, f2, f3, f4, f5, f6, f7, f8, f9, f10, f11, f12, f13,
      applyUpdate_tags_append desc up ep,
      applyUpdate_tags_mem desc up ep,
      applyUpdate_tags_nodup desc up ep⟩
  · have he : e' = applyUpdate desc up (freshEpisode num up.airDate.date desc) := by
      have : some (applyUpdate desc up (freshEpisode num up.airDate.date desc)) =
          some e' := h
      exact (Option.some.injEq _ _ ▸ this).symm
    subst he
    obtain ⟨f1, f2, f3, _, _, _, _, _, _, _, _, f12, f13⟩ :=
      applyUpdate_frame desc up (freshEpisode num up.airDate.date desc)
    refine ⟨f1, f2, f3, f12, f13, fun t => ?_⟩
    have := applyUpdate_tags_mem desc up (freshEpisode num up.airDate.date desc) t
    simpa [freshEpisode] using this

/-- C7 witness: synthesizing over an existing record with a manual tag
and detail body preserves both, overwrites the stream URLs, and (the
description being empty) adds no tag. -/
theorem create_episode_spec_witness :
    (createEpisodeFile
        (.ok ⟨"1", ⟨2023, 6, 10⟩, 0, [], "", "", "", "", "", "", false,
          ["manual"], [], "BODY"⟩) 1 ""
        ⟨"id", ⟨⟨2023, 6, 10⟩, 0⟩, ⟨⟨2023, 6, 10⟩, 0⟩, "Y", "C", []⟩ =
      some ⟨"1", ⟨2023, 6, 10⟩, 0, [], "", "C", "Y", "", "", "", false,
        ["manual"], [], "BODY"⟩) ∧
    (⟨"1", ⟨2023, 6, 10⟩, 0, [], "", "C", "Y", "", "", "", false,
        ["manual"], [], "BODY"⟩ : Episode).detail =
      (⟨"1", ⟨2023, 6, 10⟩, 0, [], "", "", "", "", "", "", false,
        ["manual"], [], "BODY"⟩ : Episode).detail ∧
    (⟨"1", ⟨2023, 6, 10⟩, 0, [], "", "C", "Y", "", "", "", false,
        ["manual"], [], "BODY"⟩ : Episode).episode =
      (⟨"1", ⟨2023, 6, 10⟩, 0, [], "", "", "", "", "", "", false,
        ["manual"], [], "BODY"⟩ : Episode).episode :=
  ⟨by decide,
    ((create_episode_spec
      ⟨"1", ⟨2023, 6, 10⟩, 0, [], "", "", "", "", "", "", false,
        ["manual"], [], "BODY"⟩
      ⟨"1", ⟨2023, 6, 10⟩, 0, [], "", "C", "Y", "", "", "", false,
        ["manual"], [], "BODY"⟩ 1 ""
      ⟨"id", ⟨⟨2023, 6, 10⟩, 0⟩, ⟨⟨2023, 6, 10⟩, 0⟩, "Y", "C", []⟩).1
      (by decide)).1,
   ((create_episode_spec
      ⟨"1", ⟨2023, 6, 10⟩, 0, [], "", "", "", "", "", "", false,
        ["manual"], [], "BODY"⟩
      ⟨"1", ⟨2023, 6, 10⟩, 0, [], "", "C", "Y", "", "", "", false,
        ["manual"], [], "BODY"⟩ 1 ""
      ⟨"id", ⟨⟨2023, 6, 10⟩, 0⟩, ⟨⟨2023, 6, 10⟩, 0⟩, "Y", "C", []⟩).1
      (by decide)).2.1⟩

end ILOF

namespace ILOF

/-- Characterization of `guestListsEqual`: equal lengths, and every guest
of the first list has an `isSameGuest` match in the second. -/
theorem guestListsEqual_iff (l1 l2 : List Guest) :
    guestListsEqual l1 l2 = true ↔
      (l1.length = l2.length ∧ ∀ g ∈ l1, ∃ x ∈ l2, isSameGuest x g = true) := by
  unfold guestListsEqual findGuest
  simp [List.all_eq_true, List.find?_isSome]

/-- `guestListsEqual` is invariant under permutation of its second
argument. -/
theorem guestListsEqual_perm_right (l1 l2 l2' : List Guest)
    (h : l2.Perm l2') : guestListsEqual l1 l2 = guestListsEqual l1 l2' := by
  cases hb : guestListsEqual l1 l2 <;> cases hb' : guestListsEqual l1 l2' <;>
    try rfl
  · obtain ⟨hlen, hall⟩ := (guestListsEqual_iff l1 l2').mp hb'
    have : guestListsEqual l1 l2 = true :=
      (guestListsEqual_iff l1 l2).mpr
        ⟨hlen.trans h.length_eq.symm,
          fun g hg => by
            obtain ⟨x, hx, hsx⟩ := hall g hg
            exact ⟨x, (h.mem_iff).mpr hx, hsx⟩⟩
    rw [hb] at this
    cases this
  · obtain ⟨hlen, hall⟩ := (guestListsEqual_iff l1 l2).mp hb
    have : guestListsEqual l1 l2' = true :=
      (guestListsEqual_iff l1 l2').mpr
        ⟨hlen.trans h.length_eq,
          fun g hg => by
            obtain ⟨x, hx, hsx⟩ := hall g hg
            exact ⟨x, (h.mem_iff).mp hx, hsx⟩⟩
    rw [hb'] at this
    cases this

/-- `guestListsEqual` is invariant under permutation of its first
argument. -/
theorem guestListsEqual_perm_left (l1 l1' l2 : List Guest)
    (h : l1.Perm l1') : guestListsEqual l1 l2 = guestListsEqual l1' l2 := by
  cases hb : guestListsEqual l1 l2 <;> cases hb' : guestListsEqual l1' l2 <;>
    try rfl
  · obtain ⟨hlen, hall⟩ := (guestListsEqual_iff l1' l2).mp hb'
    have : guestListsEqual l1 l2 = true :=
      (guestListsEqual_iff l1 l2).mpr
        ⟨h.length_eq.trans hlen, fun g hg => hall g ((h.mem_iff).mp hg)⟩
    rw [hb] at this
    cases this
  · obtain ⟨hlen, hall⟩ := (guestListsEqual_iff l1 l2).mp hb
    have : guestListsEqual l1' l2 = true :=
      (guestListsEqual_iff l1' l2).mpr
        ⟨h.length_eq.symm.trans hlen, fun g hg => hall g ((h.mem_iff).mpr hg)⟩
    rw [hb'] at this
    cases this

/-- Characterization of `shouldKeepUpdate`: keep exactly when the update
has some link or guest and no previously kept update matches it. -/
theorem shouldKeepUpdate_iff (u : TwitterUpdate) (us : List TwitterUpdate) :
    shouldKeepUpdate u us = true ↔
      ((u.crowdcast ≠ "" ∨ u.youTube ≠ "" ∨ u.guests ≠ []) ∧
        ∀ v ∈ us, ¬(v.youTube = u.youTube ∧ v.crowdcast = u.crowdcast ∧
          guestListsEqual v.guests u.guests = true)) := by
  unfold shouldKeepUpdate
  by_cases hempty :
      (u.crowdcast == "" && u.youTube == "" && u.guests.isEmpty) = true
  · rw [if_pos hempty]
    simp only [Bool.and_eq_true, beq_iff_eq, List.isEmpty_iff] at hempty
    simp [hempty.1.1, hempty.1.2, hempty.2]
  · rw [if_neg hempty]
    simp only [Bool.and_eq_true, beq_iff_eq, List.isEmpty_iff] at hempty
    have hne : u.crowdcast ≠ "" ∨ u.youTube ≠ "" ∨ u.guests ≠ [] := by
      tauto
    constructor
    · intro h
      refine ⟨hne, fun v hv hc => ?_⟩
      have hall : ∀ x ∈ us, ¬(isSameEpisode x u = true) := by
        simpa [List.any_eq_false] using h
      refine hall v hv ?_
      simp [isSameEpisode, hc.1, hc.2.1, hc.2.2]
    · rintro ⟨_, h⟩
      simp only [Bool.not_eq_true', List.any_eq_false]
      intro v hv hsame
      refine h v hv ?_
      have := hsame
      simp only [isSameEpisode, Bool.and_eq_true, beq_iff_eq] at this
      exact ⟨this.1.1, this.1.2, this.2⟩

end ILOF

namespace ILOF

/-- The kept-updates fold appends an update exactly when
`shouldKeepUpdate` accepts it against the previously kept updates. -/
theorem keptUpdates_snoc (tws : List TwitterUpdate) (u : TwitterUpdate) :
    keptUpdates (tws ++ [u]) =
      keptUpdates tws ++
        (if shouldKeepUpdate u (keptUpdates tws) then [u] else []) := by
  unfold keptUpdates
  rw [List.foldl_append]
  by_cases h :
      shouldKeepUpdate u
        (tws.foldl (fun acc u => if shouldKeepUpdate u acc then acc ++ [u] else acc)
          []) = true <;>
    simp [List.foldl, h]

/-- C2 counterexample: with two updates carrying the same links, the
first listing guest A twice and the second listing guests A and B, the
second update (which has a guest, and whose guest set differs from the
first update under the identity rule) is nevertheless dropped:
`guestListsEqual` only checks that every guest of the earlier update
matches some guest of the candidate, and is not even symmetric, so it is
not guest-set equality. -/
theorem update_dedup_counterexample :
    keptUpdates
        [⟨"1", ⟨⟨2023, 6, 10⟩, 0⟩, ⟨⟨2023, 6, 10⟩, 0⟩, "y", "",
            [⟨"A", "", "", "", []⟩, ⟨"A", "", "", "", []⟩]⟩,
         ⟨"2", ⟨⟨2023, 6, 10⟩, 0⟩, ⟨⟨2023, 6, 10⟩, 0⟩, "y", "",
            [⟨"A", "", "", "", []⟩, ⟨"B", "", "", "", []⟩]⟩] =
      [⟨"1", ⟨⟨2023, 6, 10⟩, 0⟩, ⟨⟨2023, 6, 10⟩, 0⟩, "y", "",
          [⟨"A", "", "", "", []⟩, ⟨"A", "", "", "", []⟩]⟩] ∧
    ¬ specGuestSetEq [⟨"A", "", "", "", []⟩, ⟨"A", "", "", "", []⟩]
        [⟨"A", "", "", "", []⟩, ⟨"B", "", "", "", []⟩] ∧
    guestListsEqual [⟨"A", "", "", "", []⟩, ⟨"A", "", "", "", []⟩]
        [⟨"A", "", "", "", []⟩, ⟨"B", "", "", "", []⟩] = true ∧
    guestListsEqual [⟨"A", "", "", "", []⟩, ⟨"B", "", "", "", []⟩]
        [⟨"A", "", "", "", []⟩, ⟨"A", "", "", "", []⟩] = false ∧
    ([⟨"A", "", "", "", []⟩, ⟨"B", "", "", "", []⟩] : List Guest) ≠ [] := by
  decide

end ILOF

namespace ILOF

/-- C2 (amended): an update is kept iff (a) it has a non-empty primary
or secondary link or at least one guest candidate, and (b) no
previously-kept update has an equal primary link, equal secondary link,
the same number of guest entries, and every guest entry of the
previously-kept update matching some guest entry of the candidate under
the identity rule (names equal, or equal non-empty handles) — a
one-directional, order-insensitive covering check rather than guest-set
equality; the batch fold keeps each update exactly under this
condition. -/
theorem update_dedup_keep_iff (u : TwitterUpdate) (us tws : List TwitterUpdate) :
    (shouldKeepUpdate u us = true ↔
      ((u.crowdcast ≠ "" ∨ u.youTube ≠ "" ∨ u.guests ≠ []) ∧
        ∀ v ∈ us, ¬(v.youTube = u.youTube ∧ v.crowdcast = u.crowdcast ∧
          guestListsEqual v.guests u.guests = true))) ∧
    (keptUpdates (tws ++ [u]) =
      keptUpdates tws ++
        (if shouldKeepUpdate u (keptUpdates tws) then [u] else [])) ∧
    (∀ l1 l2 l2' : List Guest, l2.Perm l2' →
      guestListsEqual l1 l2 = guestListsEqual l1 l2') ∧
    (∀ l1 l1' l2 : List Guest, l1.Perm l1' →
      guestListsEqual l1 l2 = guestListsEqual l1' l2) :=
  ⟨shouldKeepUpdate_iff u us, keptUpdates_snoc tws u,
    guestListsEqual_perm_right, guestListsEqual_perm_left⟩

/-- C2 witness: the permutation-invariance clause at concrete guest
lists, through the amended theorem. -/
theorem update_dedup_keep_iff_witness :
    ([⟨"A", "", "", "", []⟩, ⟨"B", "", "", "", []⟩] : List Guest).Perm
        [⟨"B", "", "", "", []⟩, ⟨"A", "", "", "", []⟩] ∧
    guestListsEqual [⟨"A", "", "", "", []⟩]
        [⟨"A", "", "", "", []⟩, ⟨"B", "", "", "", []⟩] =
      guestListsEqual [⟨"A", "", "", "", []⟩]
        [⟨"B", "", "", "", []⟩, ⟨"A", "", "", "", []⟩] :=
  ⟨List.Perm.swap _ _ _,
    (update_dedup_keep_iff ⟨"1", ⟨⟨2023, 6, 10⟩, 0⟩, ⟨⟨2023, 6, 10⟩, 0⟩,
        "y", "", []⟩ [] []).2.2.1
      [⟨"A", "", "", "", []⟩]
      [⟨"A", "", "", "", []⟩, ⟨"B", "", "", "", []⟩]
      [⟨"B", "", "", "", []⟩, ⟨"A", "", "", "", []⟩]
      (List.Perm.swap _ _ _)⟩

end ILOF

namespace ILOF

/-- Keeping only the `v` parameters does not change the value `Get`
returns for `v`. -/
theorem getQuery_filter_v (q : List (String × String)) :
    getQuery (q.filter (fun kv => kv.1 == "v")) "v" = getQuery q "v" := by
  unfold getQuery
  have hfind : (q.filter (fun kv => kv.1 == "v")).find? (fun kv => kv.1 == "v") =
      q.find? (fun kv => kv.1 == "v") := by
    induction q with
    | nil => rfl
    | cons kv rest ih =>
      by_cases h : (kv.1 == "v") = true
      · simp [List.filter_cons, h, List.find?_cons_of_pos]
      · simp only [List.filter_cons, h, if_false, Bool.false_eq_true]
        rw [List.find?_cons_of_neg _ (by simp [h]), ih]
  rw [hfind]

/-- C8: on the canonical YouTube hosts the identifier is the `v` query
parameter and `cleanURL` drops every other parameter (without changing
the extracted identifier); on the short-link host `youtu.be` the
identifier is the path without its leading slash; a URL with any other
host yields no identifier and, having no query, is left unmodified; with
the concrete vectors of the spec. -/
theorem youtube_normalizer (u : URLRec) :
    (u.host = "youtube.com" ∨ u.host = "www.youtube.com" →
      (cleanURL u).query = u.query.filter (fun kv => kv.1 == "v") ∧
      YouTubeVideoID u = (getQuery u.query "v", getQuery u.query "v" != "") ∧
      YouTubeVideoID (cleanURL u) = YouTubeVideoID u) ∧
    (u.host = "youtu.be" →
      YouTubeVideoID u = (trimPfx u.path "/", trimPfx u.path "/" != "")) ∧
    (u.host ≠ "youtube.com" → u.host ≠ "www.youtube.com" → u.host ≠ "youtu.be" →
      YouTubeVideoID u = ("", false) ∧ (u.query = [] → cleanURL u = u)) ∧
    YouTubeVideoID ⟨"http", "youtu.be", "/abc123", []⟩ = ("abc123", true) ∧
    YouTubeVideoID ⟨"https", "youtube.com", "/watch",
        [("v", "ID"), ("feature", "x")]⟩ = ("ID", true) ∧
    cleanURL ⟨"https", "youtube.com", "/watch", [("v", "ID"), ("feature", "x")]⟩ =
      ⟨"https", "youtube.com", "/watch", [("v", "ID")]⟩ ∧
    YouTubeVideoID ⟨"https", "google.com", "/search", [("q", "x")]⟩ =
      ("", false) ∧
    cleanURL ⟨"https", "google.com", "/x", []⟩ =
      ⟨"https", "google.com", "/x", []⟩ := by
  refine ⟨fun hhost => ?_, fun hhost => ?_, fun h1 h2 h3 => ?_,
    by decide, by decide, by decide, by decide, by decide⟩
  · refine ⟨rfl, ?_, ?_⟩
    · rcases hhost with h | h <;> simp [YouTubeVideoID, h]
    · have hq := getQuery_filter_v u.query
      rcases hhost with h | h <;>
        simp [YouTubeVideoID, cleanURL, h, hq]
  · have h1 : (u.host == "youtube.com") = false := by simp [hhost]
    have h2 : (u.host == "www.youtube.com") = false := by simp [hhost]
    simp [YouTubeVideoID, hhost, h1, h2]
  · refine ⟨?_, fun hq => ?_⟩
    · simp [YouTubeVideoID, h1, h2, h3]
    · unfold cleanURL
      rw [hq]
      show URLRec.mk u.scheme u.host u.path [] = u
      rw [← hq]

/-- C8 witness: the canonical-host clause at the concrete URL
`https://youtube.com/watch?v=ID&feature=x`. -/
theorem youtube_normalizer_witness :
    (("youtube.com" : String) = "youtube.com" ∨
      ("youtube.com" : String) = "www.youtube.com") ∧
    ((cleanURL ⟨"https", "youtube.com", "/watch",
        [("v", "ID"), ("feature", "x")]⟩).query =
      [("v", "ID"), ("feature", "x")].filter (fun kv => kv.1 == "v") ∧
     YouTubeVideoID ⟨"https", "youtube.com", "/watch",
        [("v", "ID"), ("feature", "x")]⟩ =
      (getQuery [("v", "ID"), ("feature", "x")] "v",
        getQuery [("v", "ID"), ("feature", "x")] "v" != "") ∧
     YouTubeVideoID (cleanURL ⟨"https", "youtube.com", "/watch",
        [("v", "ID"), ("feature", "x")]⟩) =
      YouTubeVideoID ⟨"https", "youtube.com", "/watch",
        [("v", "ID"), ("feature", "x")]⟩) :=
  ⟨Or.inl rfl,
    (youtube_normalizer ⟨"https", "youtube.com", "/watch",
      [("v", "ID"), ("feature", "x")]⟩).1 (Or.inl rfl)⟩

end ILOF

namespace ILOF

/-- Guest matching ignores the episodes field. -/
theorem isSameGuest_update (e : Guest) (l : List ℚ) (g : Guest) :
    isSameGuest { e with episodes := l } g = isSameGuest e g := rfl

/-- `findGuest` on the empty record list. -/
theorem findGuest_nil (g : Guest) : findGuest g [] = none := rfl

/-- `findGuest` returns the head when it matches. -/
theorem findGuest_cons_pos (e : Guest) (rest : List Guest) (g : Guest)
    (h : isSameGuest e g = true) : findGuest g (e :: rest) = some e := by
  unfold findGuest
  simp [List.find?_cons, h]

/-- `findGuest` skips a non-matching head. -/
theorem findGuest_cons_neg (e : Guest) (rest : List Guest) (g : Guest)
    (h : isSameGuest e g = false) : findGuest g (e :: rest) = findGuest g rest := by
  unfold findGuest
  simp [List.find?_cons, h]

/-- After merging `(ep, g)`, the first record matching `g` lists
`ep`. -/
theorem addGuest_covers (ep : ℚ) (g : Guest) :
    ∀ gs : List Guest, covered ep (addGuest ep g gs).1 g
  | [] => by
    refine ⟨{ g with episodes := [ep] }, ?_, by simp⟩
    exact findGuest_cons_pos _ _ _ (by simp [isSameGuest])
  | e :: rest => by
    by_cases hs : isSameGuest e g = true
    · by_cases honep : onEpisode e ep = true
      · have hstep : addGuest ep g (e :: rest) = (e :: rest, false) := by
          simp only [addGuest, hs, honep, if_true]
        rw [hstep]
        refine ⟨e, ?_, by simpa [onEpisode] using honep⟩
        exact findGuest_cons_pos _ _ _ hs
      · have hstep : addGuest ep g (e :: rest) =
            ({ e with episodes := sortQ (e.episodes ++ [ep]) } :: rest, true) := by
          simp only [addGuest, hs, honep, if_true, if_false, Bool.false_eq_true]
        rw [hstep]
        refine ⟨{ e with episodes := sortQ (e.episodes ++ [ep]) }, ?_, ?_⟩
        · exact findGuest_cons_pos _ _ _ (by rw [isSameGuest_update]; exact hs)
        · show ep ∈ ({ e with episodes := sortQ (e.episodes ++ [ep]) } : Guest).episodes
          unfold sortQ
          rw [(List.perm_insertionSort (· ≤ ·) (e.episodes ++ [ep])).mem_iff]
          simp
    · have hstep : addGuest ep g (e :: rest) =
          (e :: (addGuest ep g rest).1, (addGuest ep g rest).2) := by
        simp only [addGuest, hs, if_false, Bool.false_eq_true]
      rw [hstep]
      obtain ⟨r, hr, hepr⟩ := addGuest_covers ep g rest
      refine ⟨r, ?_, hepr⟩
      rw [findGuest_cons_neg _ _ _ (by simpa using hs)]
      exact hr

end ILOF

namespace ILOF

/-- Merging `(ep, g)` keeps every other guest covered for `ep`. -/
theorem addGuest_preserves (ep : ℚ) (g hG : Guest) :
    ∀ gs : List Guest, covered ep gs hG → covered ep (addGuest ep g gs).1 hG
  | [], h => by
    obtain ⟨r, hr, _⟩ := h
    rw [findGuest_nil] at hr
    cases hr
  | e :: rest, h => by
    obtain ⟨r, hr, hepr⟩ := h
    by_cases hs : isSameGuest e g = true
    · by_cases honep : onEpisode e ep = true
      · have hstep : addGuest ep g (e :: rest) = (e :: rest, false) := by
          simp only [addGuest, hs, honep, if_true]
        rw [hstep]
        exact ⟨r, hr, hepr⟩
      · have hstep : addGuest ep g (e :: rest) =
            ({ e with episodes := sortQ (e.episodes ++ [ep]) } :: rest, true) := by
          simp only [addGuest, hs, honep, if_true, if_false, Bool.false_eq_true]
        rw [hstep]
        by_cases hsh : isSameGuest e hG = true
        · refine ⟨{ e with episodes := sortQ (e.episodes ++ [ep]) }, ?_, ?_⟩
          · exact findGuest_cons_pos _ _ _ (by rw [isSameGuest_update]; exact hsh)
          · show ep ∈ ({ e with episodes := sortQ (e.episodes ++ [ep]) } : Guest).episodes
            unfold sortQ
            rw [(List.perm_insertionSort (· ≤ ·) (e.episodes ++ [ep])).mem_iff]
            simp
        · rw [findGuest_cons_neg _ _ _ (by simpa using hsh)] at hr
          refine ⟨r, ?_, hepr⟩
          rw [findGuest_cons_neg _ _ _
            (by rw [isSameGuest_update]; simpa using hsh)]
          exact hr
    · have hstep : addGuest ep g (e :: rest) =
          (e :: (addGuest ep g rest).1, (addGuest ep g rest).2) := by
        simp only [addGuest, hs, if_false, Bool.false_eq_true]
      rw [hstep]
      by_cases hsh : isSameGuest e hG = true
      · rw [findGuest_cons_pos _ _ _ hsh] at hr
        cases hr
        exact ⟨e, findGuest_cons_pos _ _ _ hsh, hepr⟩
      · rw [findGuest_cons_neg _ _ _ (by simpa using hsh)] at hr
        obtain ⟨r2, hr2, hepr2⟩ :=
          addGuest_preserves ep g hG rest ⟨r, hr, hepr⟩
        refine ⟨r2, ?_, hepr2⟩
        rw [findGuest_cons_neg _ _ _ (by simpa using hsh)]
        exact hr2

/-- Merging `(ep, g)` into a list that already covers `g` changes
nothing and reports clean. -/
theorem addGuest_noop_of_covered (ep : ℚ) (g : Guest) :
    ∀ gs : List Guest, covered ep gs g → addGuest ep g gs = (gs, false)
  | [], h => by
    obtain ⟨r, hr, _⟩ := h
    rw [findGuest_nil] at hr
    cases hr
  | e :: rest, h => by
    obtain ⟨r, hr, hepr⟩ := h
    by_cases hs : isSameGuest e g = true
    · rw [findGuest_cons_pos _ _ _ hs] at hr
      cases hr
      have honep : onEpisode e ep = true := by
        simpa [onEpisode] using hepr
      simp only [addGuest, hs, honep, if_true]
    · rw [findGuest_cons_neg _ _ _ (by simpa using hs)] at hr
      have ih := addGuest_noop_of_covered ep g rest ⟨r, hr, hepr⟩
      simp only [addGuest, hs, if_false, Bool.false_eq_true, ih]

end ILOF

namespace ILOF

/-- The merge fold preserves coverage of any fixed guest. -/
theorem foldl_merge_preserves (ep : ℚ) (hG : Guest) :
    ∀ (gs : List Guest) (acc : List Guest × Bool),
      covered ep acc.1 hG → covered ep (gs.foldl (mergeStep ep) acc).1 hG
  | [], _, h => h
  | g :: rest, acc, h => by
    rw [List.foldl_cons]
    exact foldl_merge_preserves ep hG rest (mergeStep ep acc g)
      (show covered ep (addGuest ep g acc.1).1 hG from
        addGuest_preserves ep g hG acc.1 h)

/-- After the merge fold, every guest of the batch is covered. -/
theorem foldl_merge_covers (ep : ℚ) :
    ∀ (gs : List Guest) (acc : List Guest × Bool) (g : Guest), g ∈ gs →
      covered ep (gs.foldl (mergeStep ep) acc).1 g
  | [], _, g, hg => absurd hg (List.not_mem_nil g)
  | g' :: rest, acc, g, hg => by
    rw [List.foldl_cons]
    rcases List.mem_cons.mp hg with rfl | hmem
    · exact foldl_merge_preserves ep g rest (mergeStep ep acc g)
        (show covered ep (addGuest ep g acc.1).1 g from
          addGuest_covers ep g acc.1)
    · exact foldl_merge_covers ep rest _ g hmem

/-- The merge fold is the identity (and stays clean) on a state that
covers the whole batch. -/
theorem foldl_merge_noop (ep : ℚ) :
    ∀ (gs : List Guest) (acc : List Guest × Bool),
      (∀ g ∈ gs, covered ep acc.1 g) → gs.foldl (mergeStep ep) acc = acc
  | [], _, _ => rfl
  | g :: rest, acc, h => by
    rw [List.foldl_cons]
    have hstep : mergeStep ep acc g = acc := by
      unfold mergeStep
      rw [addGuest_noop_of_covered ep g acc.1 (h g (by simp))]
      simp
    rw [hstep]
    exact foldl_merge_noop ep rest acc (fun g' hg' => h g' (by simp [hg']))

/-- Merging `(ep, g)` preserves duplicate-freedom of all episode
lists. -/
theorem addGuest_nodup (ep : ℚ) (g : Guest) :
    ∀ gs : List Guest, (∀ x ∈ gs, x.episodes.Nodup) →
      ∀ x ∈ (addGuest ep g gs).1, x.episodes.Nodup
  | [], _, x, hx => by
    have hx' : x = { g with episodes := [ep] } := by
      simpa [addGuest] using hx
    subst hx'
    simp
  | e :: rest, h, x, hx => by
    by_cases hs : isSameGuest e g = true
    · by_cases honep : onEpisode e ep = true
      · have hstep : addGuest ep g (e :: rest) = (e :: rest, false) := by
          simp only [addGuest, hs, honep, if_true]
        rw [hstep] at hx
        exact h x hx
      · have hstep : addGuest ep g (e :: rest) =
            ({ e with episodes := sortQ (e.episodes ++ [ep]) } :: rest, true) := by
          simp only [addGuest, hs, honep, if_true, if_false, Bool.false_eq_true]
        rw [hstep] at hx
        rcases List.mem_cons.mp hx with rfl | hmem
        · show (sortQ (e.episodes ++ [ep])).Nodup
          unfold sortQ
          rw [(List.perm_insertionSort (· ≤ ·) (e.episodes ++ [ep])).nodup_iff]
          have hnotin : ep ∉ e.episodes := by
            simpa [onEpisode] using honep
          simp [List.nodup_append, h e (by simp), hnotin]
        · exact h x (by simp [hmem])
    · have hstep : addGuest ep g (e :: rest) =
          (e :: (addGuest ep g rest).1, (addGuest ep g rest).2) := by
        simp only [addGuest, hs, if_false, Bool.false_eq_true]
      rw [hstep] at hx
      rcases List.mem_cons.mp hx with rfl | hmem
      · exact h x (by simp)
      · exact addGuest_nodup ep g rest (fun y hy => h y (by simp [hy])) x hmem

/-- Every record after merging `(ep, g)` is either untouched or has a
sorted episode list. -/
theorem addGuest_sorted (ep : ℚ) (g : Guest) :
    ∀ gs : List Guest, ∀ x ∈ (addGuest ep g gs).1,
      x ∈ gs ∨ x.episodes.Sorted (· ≤ ·)
  | [], x, hx => by
    have hx' : x = { g with episodes := [ep] } := by
      simpa [addGuest] using hx
    subst hx'
    right
    simp
  | e :: rest, x, hx => by
    by_cases hs : isSameGuest e g = true
    · by_cases honep : onEpisode e ep = true
      · have hstep : addGuest ep g (e :: rest) = (e :: rest, false) := by
          simp only [addGuest, hs, honep, if_true]
        rw [hstep] at hx
        exact Or.inl hx
      · have hstep : addGuest ep g (e :: rest) =
            ({ e with episodes := sortQ (e.episodes ++ [ep]) } :: rest, true) := by
          simp only [addGuest, hs, honep, if_true, if_false, Bool.false_eq_true]
        rw [hstep] at hx
        rcases List.mem_cons.mp hx with rfl | hmem
        · right
          show (sortQ (e.episodes ++ [ep])).Sorted (· ≤ ·)
          exact List.sorted_insertionSort (· ≤ ·) (e.episodes ++ [ep])
        · exact Or.inl (by simp [hmem])
    · have hstep : addGuest ep g (e :: rest) =
          (e :: (addGuest ep g rest).1, (addGuest ep g rest).2) := by
        simp only [addGuest, hs, if_false, Bool.false_eq_true]
      rw [hstep] at hx
      rcases List.mem_cons.mp hx with rfl | hmem
      · exact Or.inl (by simp)
      · rcases addGuest_sorted ep g rest x hmem with hin | hsort
        · exact Or.inl (by simp [hin])
        · exact Or.inr hsort

/-- The merge fold preserves duplicate-freedom of all episode lists. -/
theorem foldl_merge_nodup (ep : ℚ) :
    ∀ (gs : List Guest) (acc : List Guest × Bool),
      (∀ x ∈ acc.1, x.episodes.Nodup) →
      ∀ x ∈ (gs.foldl (mergeStep ep) acc).1, x.episodes.Nodup
  | [], _, h => h
  | g :: rest, acc, h => by
    rw [List.foldl_cons]
    exact foldl_merge_nodup ep rest (mergeStep ep acc g)
      (show ∀ x ∈ (addGuest ep g acc.1).1, x.episodes.Nodup from
        addGuest_nodup ep g acc.1 h)

/-- Every record after the merge fold is an untouched input record or
has a sorted episode list. -/
theorem foldl_merge_sorted (ep : ℚ) (entries : List Guest) :
    ∀ (gs : List Guest) (acc : List Guest × Bool),
      (∀ x ∈ acc.1, x ∈ entries ∨ x.episodes.Sorted (· ≤ ·)) →
      ∀ x ∈ (gs.foldl (mergeStep ep) acc).1,
        x ∈ entries ∨ x.episodes.Sorted (· ≤ ·)
  | [], _, h => h
  | g :: rest, acc, h => by
    rw [List.foldl_cons]
    refine foldl_merge_sorted ep entries rest (mergeStep ep acc g)
      (fun x hx => ?_)
    rcases addGuest_sorted ep g acc.1 x
        (show x ∈ (addGuest ep g acc.1).1 from hx) with hin | hsort
    · exact h x hin
    · exact Or.inr hsort

end ILOF

namespace ILOF

/-- C1: the guest-registry merge is idempotent — re-merging the same
batch for the same episode reports `changed = false` (so the file-level
operation performs no write), every record's episode list stays free of
duplicates, and every record is either an untouched input record or has
its episode list sorted ascending. -/
theorem guest_merge_idempotent (ep : ℚ) (entries guests : List Guest)
    (h : ∀ g ∈ entries, g.episodes.Nodup) :
    (mergeGuests ep (mergeGuests ep entries guests).1 guests).2 = false ∧
    (mergeGuests ep (mergeGuests ep entries guests).1 guests).1 =
      (mergeGuests ep entries guests).1 ∧
    AddOrUpdateGuests ep (.parsed (mergeGuests ep entries guests).1) guests =
      .ok none ∧
    (∀ g ∈ (mergeGuests ep entries guests).1, g.episodes.Nodup) ∧
    (∀ g ∈ (mergeGuests ep entries guests).1,
      g ∈ entries ∨ g.episodes.Sorted (· ≤ ·)) := by
  have hcov : ∀ g ∈ guests, covered ep (mergeGuests ep entries guests).1 g :=
    fun g hg => foldl_merge_covers ep guests (entries, false) g hg
  have hsecond : mergeGuests ep (mergeGuests ep entries guests).1 guests =
      ((mergeGuests ep entries guests).1, false) :=
    foldl_merge_noop ep guests ((mergeGuests ep entries guests).1, false) hcov
  refine ⟨?_, ?_, ?_, ?_, ?_⟩
  · rw [hsecond]
  · rw [hsecond]
  · by_cases hgg : guests = []
    · simp [AddOrUpdateGuests, hgg]
    · unfold AddOrUpdateGuests
      rw [if_neg hgg]
      show (if (mergeGuests ep (mergeGuests ep entries guests).1 guests).2
        then MergeOutcome.ok (some (mergeGuests ep
          (mergeGuests ep entries guests).1 guests).1)
        else MergeOutcome.ok none) = MergeOutcome.ok none
      rw [hsecond]
      rfl
  · exact foldl_merge_nodup ep guests (entries, false) h
  · exact foldl_merge_sorted ep entries guests (entries, false)
      (fun x hx => Or.inl hx)

/-- C1 witness: one fresh guest merged twice into an empty registry. -/
theorem guest_merge_idempotent_witness :
    (∀ g ∈ ([] : List Guest), g.episodes.Nodup) ∧
    ((mergeGuests 1 (mergeGuests 1 [] [⟨"Alice", "alice", "", "", []⟩]).1
        [⟨"Alice", "alice", "", "", []⟩]).2 = false ∧
      (mergeGuests 1 (mergeGuests 1 [] [⟨"Alice", "alice", "", "", []⟩]).1
        [⟨"Alice", "alice", "", "", []⟩]).1 =
        (mergeGuests 1 [] [⟨"Alice", "alice", "", "", []⟩]).1 ∧
      AddOrUpdateGuests 1
        (.parsed (mergeGuests 1 [] [⟨"Alice", "alice", "", "", []⟩]).1)
        [⟨"Alice", "alice", "", "", []⟩] = .ok none ∧
      (∀ g ∈ (mergeGuests 1 [] [⟨"Alice", "alice", "", "", []⟩]).1,
        g.episodes.Nodup) ∧
      (∀ g ∈ (mergeGuests 1 [] [⟨"Alice", "alice", "", "", []⟩]).1,
        g ∈ ([] : List Guest) ∨ g.episodes.Sorted (· ≤ ·))) :=
  ⟨by simp, guest_merge_idempotent 1 [] [⟨"Alice", "alice", "", "", []⟩]
    (by simp)⟩

end ILOF
